import Mathlib

/-!
Shallow embedding of `src/mapping.py` (CKAN metadata → Schema.org Dataset
mapper) and proofs about its transformation core: the text sanitizer
`cleanup_text`, the name parser `parse_person_name`, the flexible list
decoder `try_parse_json_list`, and the record mapper `map_to_schema_org`.

Python's dynamically typed JSON values are modelled by the inductive `JVal`;
operations that can raise in Python (attribute access on non-dicts,
iteration over non-iterables, string indexing, `str.strip` on non-strings)
are modelled in the `Except String` monad.
-/

namespace SradiMap

/-- JSON-like values, as produced by Python's `json.loads` and passed around
`mapping.py`. Numbers are modelled as integers (the claims never involve
floats). -/
inductive JVal where
  | null
  | bool (b : Bool)
  | num (n : Int)
  | str (s : String)
  | arr (elts : List JVal)
  | obj (fields : List (String × JVal))
  deriving Repr

/-- Python truthiness of a JSON value (`bool(v)`): `None`, `False`, `0`, `""`,
`[]` and `{}` are falsy. -/
def truthy : JVal → Bool
  | .null => false
  | .bool b => b
  | .num n => n != 0
  | .str s => s != ""
  | .arr l => !l.isEmpty
  | .obj f => !f.isEmpty

/-- The ASCII whitespace characters matched by Python's `\s` regex class and
stripped by `str.strip()` (space, tab, newline, carriage return, vertical
tab, form feed). Unicode whitespace is not modelled. -/
def pySpace (c : Char) : Bool :=
  c = ' ' || c = '\t' || c = '\n' || c = '\r' || c = '\x0b' || c = '\x0c'

/-- Accumulator loop for `pySplit`: `cur` is the current word, reversed. -/
def wordsGo : List Char → List Char → List String
  | cur, [] => if cur.isEmpty then [] else [String.mk cur.reverse]
  | cur, c :: rest =>
    if pySpace c then
      if cur.isEmpty then wordsGo [] rest
      else String.mk cur.reverse :: wordsGo [] rest
    else wordsGo (c :: cur) rest

/-- Python's `str.split()` with no argument: split on runs of whitespace,
discarding empty pieces. -/
def pySplit (s : String) : List String := wordsGo [] s.toList

/-- `true` when the list contains a `>`. The regex `<[^>]*>` matches
starting at a `<` exactly when a `>` occurs somewhere later. -/
def hasGt : List Char → Bool
  | [] => false
  | c :: rest => c == '>' || hasGt rest

/-- State machine for `re.sub(r'<[^>]*>', ' ', text)`: in copy mode
(`inTag = false`), a `<` that has a later `>` emits a single space and
enters tag mode; tag mode consumes characters up to and including the
first `>`. A `<` with no later `>` cannot start a match and is copied. -/
def stripGo : Bool → List Char → List Char
  | _, [] => []
  | true, c :: rest => if c == '>' then stripGo false rest else stripGo true rest
  | false, c :: rest =>
    if c == '<' && hasGt rest then ' ' :: stripGo true rest
    else c :: stripGo false rest

/-- `re.sub(r'<[^>]*>', ' ', text)` on a character list. -/
def stripTags (l : List Char) : List Char := stripGo false l

/-- Match an entity body (the part after a `&`) at the head of the list;
on success return the decoded character and how many characters the body
occupies. Python's `html.unescape` knows the full HTML5 entity table; this
model covers the core entities (`&amp;` `&lt;` `&gt;` `&quot;` `&#39;`
`&apos;`), which is faithful on all inputs the development evaluates. -/
def entHead (l : List Char) : Option (Char × Nat) :=
  if l.take 4 = "amp;".toList then some ('&', 4)
  else if l.take 3 = "lt;".toList then some ('<', 3)
  else if l.take 3 = "gt;".toList then some ('>', 3)
  else if l.take 5 = "quot;".toList then some ('"', 5)
  else if l.take 4 = "#39;".toList then some ('\'', 4)
  else if l.take 5 = "apos;".toList then some ('\'', 5)
  else none

/-- Fuelled worker for `unescape`; the fuel never runs out when it starts
at the input length. -/
def unescapeGo : Nat → List Char → List Char
  | _, [] => []
  | 0, l => l
  | fuel + 1, c :: rest =>
    if c == '&' then
      match entHead rest with
      | some (d, k) => d :: unescapeGo fuel (rest.drop k)
      | none => c :: unescapeGo fuel rest
    else c :: unescapeGo fuel rest

/-- Model of Python's `html.unescape`: decode `&`-entity references,
leaving unrecognised text alone. -/
def unescape (l : List Char) : List Char := unescapeGo l.length l

/-- `text.replace('\r', ' ').replace('\n', ' ')`. -/
def replCRLF (l : List Char) : List Char :=
  l.map (fun c => if c == '\r' || c == '\n' then ' ' else c)

/-- `re.sub(r'\s+', ' ', text)`: collapse each run of whitespace to a single
space. `prevSp` records whether the previous character was whitespace. -/
def collapseGo : Bool → List Char → List Char
  | _, [] => []
  | prevSp, c :: rest =>
    if pySpace c then
      if prevSp then collapseGo true rest
      else ' ' :: collapseGo true rest
    else c :: collapseGo false rest

/-- `str.strip()`: drop leading and trailing whitespace. -/
def pyStrip (l : List Char) : List Char :=
  ((l.dropWhile pySpace).reverse.dropWhile pySpace).reverse

/-- The sanitising pipeline of `cleanup_text` on a character list:
strip HTML tags, unescape entities, replace CR/LF by spaces, collapse
whitespace runs, strip. -/
def cleanChars (l : List Char) : List Char :=
  pyStrip (collapseGo false (replCRLF (unescape (stripTags l))))

/-- `cleanup_text` on a string input (the `if not text` guard returns `""`
for the empty string; for a non-empty string the pipeline runs). -/
def cleanup_text (s : String) : String :=
  if s = "" then "" else String.mk (cleanChars s.toList)

/-- `cleanup_text` on an arbitrary value: non-string or falsy input yields
the empty string. -/
def cleanupAny (v : JVal) : String :=
  match v with
  | .str s => cleanup_text s
  | _ => ""

/-- The mapping returned by `parse_person_name`: a Python dict with up to
three keys (`name`, `givenName`, `familyName`), each present or absent. -/
structure NameParts where
  name : Option String := none
  givenName : Option String := none
  familyName : Option String := none
  deriving Repr, DecidableEq

/-- `parse_person_name` on a string argument. The code computes
`name.strip().split()`; since `split()` with no argument already discards
leading/trailing whitespace, `pySplit name` is the same token list. The
returned `name` key holds the ORIGINAL argument, not the rejoined tokens. -/
def parse_person_name (name : String) : NameParts :=
  if name = "" then {}
  else
    match pySplit name with
    | [] => {}
    | [_] => { name := some name, givenName := some name }
    | parts => { name := some name,
                 givenName := some (" ".intercalate parts.dropLast),
                 familyName := some (parts.getLastD "") }

/-- JSON whitespace accepted by `json.loads` between tokens. -/
def jsonWs (c : Char) : Bool := c = ' ' || c = '\t' || c = '\n' || c = '\r'

def skipWs (l : List Char) : List Char := l.dropWhile jsonWs

/-- Parse the body of a JSON string literal after the opening quote;
`acc` holds the characters read so far, reversed. The simple escapes are
supported; `\uXXXX` escapes are not modelled. -/
def parseStrGo : List Char → List Char → Option (String × List Char)
  | _, [] => none
  | acc, c :: rest =>
    if c = '"' then some (String.mk acc.reverse, rest)
    else if c = '\\' then
      match rest with
      | [] => none
      | e :: rest' =>
        if e = '"' then parseStrGo ('"' :: acc) rest'
        else if e = '\\' then parseStrGo ('\\' :: acc) rest'
        else if e = '/' then parseStrGo ('/' :: acc) rest'
        else if e = 'n' then parseStrGo ('\n' :: acc) rest'
        else if e = 't' then parseStrGo ('\t' :: acc) rest'
        else if e = 'r' then parseStrGo ('\r' :: acc) rest'
        else if e = 'b' then parseStrGo ('\x08' :: acc) rest'
        else if e = 'f' then parseStrGo ('\x0c' :: acc) rest'
        else none
    else parseStrGo (c :: acc) rest

/-- Parse a run of decimal digits into a natural number. -/
def parseNat (l : List Char) : Option (Nat × List Char) :=
  let ds := l.takeWhile Char.isDigit
  if ds.isEmpty then none
  else some (ds.foldl (fun n c => 10 * n + (c.toNat - 48)) 0, l.drop ds.length)

mutual

/-- Recursive-descent JSON value parser, fuelled by the input length.
Numbers are modelled as integers (float and leading-zero syntax are not
modelled exactly); this is faithful on every document this development
evaluates. -/
def parseVal : Nat → List Char → Option (JVal × List Char)
  | 0, _ => none
  | fuel + 1, l =>
    match l with
    | [] => none
    | c :: rest =>
      if c = 'n' then
        if rest.take 3 = "ull".toList then some (.null, rest.drop 3) else none
      else if c = 't' then
        if rest.take 3 = "rue".toList then some (.bool true, rest.drop 3) else none
      else if c = 'f' then
        if rest.take 4 = "alse".toList then some (.bool false, rest.drop 4) else none
      else if c = '"' then
        (parseStrGo [] rest).map (fun p => (.str p.1, p.2))
      else if c = '[' then
        match skipWs rest with
        | ']' :: rest' => some (.arr [], rest')
        | l' => (parseElems fuel l').map (fun p => (.arr p.1, p.2))
      else if c = '\x7b' then
        match skipWs rest with
        | '\x7d' :: rest' => some (.obj [], rest')
        | l' => (parseMembers fuel l').map (fun p => (.obj p.1, p.2))
      else if c = '-' then
        (parseNat rest).map (fun p => (.num (-(p.1 : Int)), p.2))
      else if c.isDigit then
        (parseNat l).map (fun p => (.num (p.1 : Int), p.2))
      else none

/-- Parse the comma-separated elements of a JSON array, up to and including
the closing bracket. -/
def parseElems : Nat → List Char → Option (List JVal × List Char)
  | 0, _ => none
  | fuel + 1, l => do
    let (v, rest) ← parseVal fuel (skipWs l)
    match skipWs rest with
    | ',' :: rest' =>
      let (vs, rest'') ← parseElems fuel rest'
      pure (v :: vs, rest'')
    | ']' :: rest' => pure ([v], rest')
    | _ => none

/-- Parse the comma-separated members of a JSON object, up to and including
the closing brace. -/
def parseMembers : Nat → List Char → Option (List (String × JVal) × List Char)
  | 0, _ => none
  | fuel + 1, l =>
    match skipWs l with
    | '"' :: rest => do
      let (k, rest1) ← parseStrGo [] rest
      match skipWs rest1 with
      | ':' :: rest2 => do
        let (v, rest3) ← parseVal fuel (skipWs rest2)
        match skipWs rest3 with
        | ',' :: rest4 =>
          let (ms, rest5) ← parseMembers fuel rest4
          pure ((k, v) :: ms, rest5)
        | '\x7d' :: rest4 => pure ([(k, v)], rest4)
        | _ => none
      | _ => none
    | _ => none

end

/-- Model of `json.loads`: parse a complete JSON document, allowing
surrounding whitespace and rejecting trailing garbage. (Duplicate object
keys are kept in order rather than collapsed to the last occurrence as
Python does; no claim involves duplicate keys.) -/
def jsonParse (s : String) : Option JVal :=
  match parseVal (s.length + 1) (skipWs s.toList) with
  | some (v, rest) => if skipWs rest = [] then some v else none
  | none => none

/-- `try_parse_json_list`: non-string or falsy input yields `[]`; otherwise
the string is JSON-parsed, a parse failure yields `[]`, a parsed list is
returned as-is, a parsed mapping is wrapped in a one-element list, and any
other parsed value yields `[]`. -/
def try_parse_json_list (value : JVal) : List JVal :=
  match value with
  | .str s =>
    if s = "" then []
    else
      match jsonParse s with
      | some (.arr l) => l
      | some (.obj f) => [.obj f]
      | _ => []
  | _ => []

/-- Computations that can raise a Python exception are modelled in
`Except String`, the string naming the exception. -/
abbrev PyRes := Except String

/-- `v.get(k)` on an arbitrary value: for a dict, the value at `k` (or
`None` when absent); anything else raises `AttributeError`. -/
def pyGet (v : JVal) (k : String) : PyRes JVal :=
  match v with
  | .obj f => .ok ((f.lookup k).getD .null)
  | _ => .error "AttributeError: get"

/-- `for x in v`: lists yield their elements, strings their characters
(as one-character strings), dicts their keys; anything else raises
`TypeError`. -/
def pyIter : JVal → PyRes (List JVal)
  | .arr l => .ok l
  | .str s => .ok (s.toList.map (fun c => .str (String.mk [c])))
  | .obj f => .ok (f.map (fun p => .str p.1))
  | _ => .error "TypeError: not iterable"

mutual

/-- Equality test used by Python's `in` on list elements, modelled
structurally (mutual recursion through the nested lists). -/
def jvalBeq : JVal → JVal → Bool
  | .null, .null => true
  | .bool a, .bool b => a == b
  | .num a, .num b => a == b
  | .str a, .str b => a == b
  | .arr a, .arr b => jvalBeqList a b
  | .obj a, .obj b => jvalBeqFields a b
  | _, _ => false

/-- Elementwise `jvalBeq` on lists. -/
def jvalBeqList : List JVal → List JVal → Bool
  | [], [] => true
  | a :: as, b :: bs => jvalBeq a b && jvalBeqList as bs
  | _, _ => false

/-- Elementwise `jvalBeq` on key/value lists. -/
def jvalBeqFields : List (String × JVal) → List (String × JVal) → Bool
  | [], [] => true
  | (k1, v1) :: as, (k2, v2) :: bs => k1 == k2 && jvalBeq v1 v2 && jvalBeqFields as bs
  | _, _ => false

end

/-- `str.find`-style substring containment, for `k in someString`. -/
def strContains (s pat : String) : Bool :=
  s.toList.tails.any (fun t => pat.toList.isPrefixOf t)

/-- `k in v` for a string key `k`: key membership for dicts, substring
containment for strings, element membership for lists; anything else
raises `TypeError`. -/
def pyIn (k : String) : JVal → PyRes Bool
  | .obj f => .ok (f.lookup k).isSome
  | .str s => .ok (strContains s k)
  | .arr l => .ok (l.any (jvalBeq (.str k)))
  | _ => .error "TypeError: argument not iterable"

/-- `v[k]` for a string key: dict indexing (raising `KeyError` when the key
is absent); strings and lists require integer indices, so a string key
raises `TypeError`. -/
def pyIndexKey (v : JVal) (k : String) : PyRes JVal :=
  match v with
  | .obj f =>
    match f.lookup k with
    | some x => .ok x
    | none => .error "KeyError"
  | _ => .error "TypeError: indices must be integers"

mutual

/-- Python `repr` of a JSON value, used by `str` on containers. String
escaping inside `repr` is not modelled. -/
def pyRepr : JVal → String
  | .null => "None"
  | .bool true => "True"
  | .bool false => "False"
  | .num n => toString n
  | .str s => "'" ++ s ++ "'"
  | .arr l => "[" ++ pyReprList l ++ "]"
  | .obj f => "\x7b" ++ pyReprFields f ++ "\x7d"

/-- Comma-separated `repr`s of list elements. -/
def pyReprList : List JVal → String
  | [] => ""
  | [x] => pyRepr x
  | x :: y :: xs => pyRepr x ++ ", " ++ pyReprList (y :: xs)

/-- Comma-separated `repr`s of dict members. -/
def pyReprFields : List (String × JVal) → String
  | [] => ""
  | [(k, v)] => "'" ++ k ++ "': " ++ pyRepr v
  | (k, v) :: m :: ms =>
    "'" ++ k ++ "': " ++ pyRepr v ++ ", " ++ pyReprFields (m :: ms)

end

/-- Python `str()` of a JSON value, as interpolated by the f-string that
builds the dataset URL. -/
def pyStr : JVal → String
  | .null => "None"
  | .bool true => "True"
  | .bool false => "False"
  | .num n => toString n
  | .str s => s
  | .arr l => pyRepr (.arr l)
  | .obj f => pyRepr (.obj f)

/-- `parse_person_name` as called inside the mapper loops, where the
argument is `entry.get(...)`: a falsy argument returns the empty mapping;
a truthy non-string raises (`.strip()` on a non-string). -/
def parsePersonAny (v : JVal) : PyRes NameParts :=
  if truthy v then
    match v with
    | .str s => .ok (parse_person_name s)
    | _ => .error "AttributeError: strip"
  else .ok {}

/-- A Schema.org Person as built by the mapper loops: the `@type` key is
constant, the three name keys come from `parse_person_name` and `email`
is present only when attached. -/
structure Person where
  name : Option String := none
  givenName : Option String := none
  familyName : Option String := none
  email : Option JVal := none
  deriving Repr

/-- Truthiness of `person.get("name")`: the key is present with a
non-empty string. -/
def personNameTruthy (p : Person) : Bool :=
  match p.name with
  | some s => s != ""
  | none => false

/-- One iteration of the creator/maintainer loop: build a Person from
`entry.get(nameKey)` via the name parser, attach `entry.get(emailKey)` as
email when truthy, and append the Person when its `name` is truthy. -/
def personStep (nameKey emailKey : String) (acc : List Person) (ent : JVal) :
    PyRes (List Person) := do
  let nm ← pyGet ent nameKey
  let pn ← parsePersonAny nm
  let em ← pyGet ent emailKey
  let person : Person :=
    { name := pn.name, givenName := pn.givenName, familyName := pn.familyName,
      email := if truthy em then some em else none }
  pure (if personNameTruthy person then acc ++ [person] else acc)

/-- The creator/maintainer loop of `map_to_schema_org`. -/
def buildPersons (nameKey emailKey : String) (entries : List JVal) :
    PyRes (List Person) :=
  entries.foldlM (personStep nameKey emailKey) []

/-- A Schema.org DataDownload as built from one resource entry
(`@type` is constant). -/
structure Distribution where
  name : JVal
  contentUrl : JVal
  encodingFormat : JVal
  description : String
  deriving Repr

/-- A Schema.org Organization as attached under `publisher`. -/
structure Organization where
  name : JVal
  description : JVal
  deriving Repr

/-- The Schema.org Dataset produced by `map_to_schema_org` (`@context` and
`@type` are constants and are not carried). `publisher` is `none` exactly
when the key is omitted from the output dict. -/
structure Dataset where
  name : JVal
  description : String
  identifier : JVal
  url : String
  license : JVal
  datePublished : JVal
  dateModified : JVal
  inLanguage : JVal
  keywords : List JVal
  creator : List Person
  maintainer : List Person
  distribution : List Distribution
  publisher : Option Organization
  deriving Repr

/-- `ckan_data.get(k)` on the top-level record (a dict by assumption). -/
def fieldOr (r : List (String × JVal)) (k : String) : JVal :=
  (r.lookup k).getD .null

/-- `ckan_data.get(k, default)` on the top-level record. -/
def fieldOrD (r : List (String × JVal)) (k : String) (d : JVal) : JVal :=
  (r.lookup k).getD d

/-- One iteration of the keywords comprehension
`[tag["display_name"] for tag in tags if "display_name" in tag]`. -/
def keywordStep (acc : List JVal) (tag : JVal) : PyRes (List JVal) := do
  let b ← pyIn "display_name" tag
  if b then do
    let v ← pyIndexKey tag "display_name"
    pure (acc ++ [v])
  else pure acc

/-- The keywords comprehension over the already-iterated tag items. -/
def buildKeywords (items : List JVal) : PyRes (List JVal) :=
  items.foldlM keywordStep []

/-- One iteration of the distributions loop: one DataDownload per resource
entry, with raw `name`/`url`/`format` and a sanitized `description`. -/
def distStep (acc : List Distribution) (res : JVal) :
    PyRes (List Distribution) := do
  let n ← pyGet res "name"
  let u ← pyGet res "url"
  let fm ← pyGet res "format"
  let ds ← pyGet res "description"
  pure (acc ++ [({ name := n, contentUrl := u, encodingFormat := fm,
                   description := cleanupAny ds } : Distribution)])

/-- The distributions loop. -/
def buildDistributions (items : List JVal) : PyRes (List Distribution) :=
  items.foldlM distStep []

/-- `map_to_schema_org`: the full record mapper, in source order. The input
is the top-level CKAN record (a mapping, per the function's contract); every
Python operation that can raise is threaded through `PyRes`. -/
def map_to_schema_org (ckan : List (String × JVal)) : PyRes Dataset := do
  let creators ← buildPersons "author_name" "author_email"
    (try_parse_json_list (fieldOr ckan "author"))
  let maintainers ← buildPersons "maintainer_name" "maintainer_email"
    (try_parse_json_list (fieldOr ckan "maintainer"))
  let tagItems ← pyIter (fieldOrD ckan "tags" (.arr []))
  let keywords ← buildKeywords tagItems
  let resItems ← pyIter (fieldOrD ckan "resources" (.arr []))
  let distributions ← buildDistributions resItems
  let licenseUrl := fieldOr ckan "license_url"
  let base : Dataset :=
    { name := fieldOr ckan "title",
      description := cleanupAny (fieldOr ckan "notes"),
      identifier := fieldOr ckan "id",
      url := "http://129.187.232.198:5000/dataset/" ++ pyStr (fieldOr ckan "name"),
      license := if truthy licenseUrl then licenseUrl else fieldOr ckan "license_title",
      datePublished := fieldOr ckan "metadata_created",
      dateModified := fieldOr ckan "metadata_modified",
      inLanguage := fieldOr ckan "language",
      keywords := keywords,
      creator := creators,
      maintainer := maintainers,
      distribution := distributions,
      publisher := none }
  let orgData := fieldOr ckan "organization"
  if truthy orgData then do
    let t ← pyGet orgData "title"
    let d ← pyGet orgData "description"
    pure { base with publisher := some { name := t, description := d } }
  else
    pure base

/-- `true` when no `<` in the list is followed (anywhere later) by a `>`,
i.e. the list contains no substring matching the tag regex `<[^>]*>`. -/
def noTag : List Char → Bool
  | [] => true
  | c :: rest => (c != '<' || !hasGt rest) && noTag rest

/-- `true` when the head, if any, is not whitespace. -/
def headNotSpace : List Char → Bool
  | [] => true
  | c :: _ => !pySpace c

/-- `true` when every whitespace character in the list is a plain space not
followed by further whitespace (the shape `re.sub(r'\s+', ' ', ·)` leaves). -/
def spaced : List Char → Bool
  | [] => true
  | c :: rest =>
    if pySpace c then c == ' ' && headNotSpace rest && spaced rest
    else spaced rest

/-- The Flexible List Decoder as the SPEC describes it (spec §4.3), for
comparison with `try_parse_json_list`: non-string or falsy input → `[]`;
parse failure → `[]`; parsed list → as-is; parsed mapping → one-element
list; any other parsed value → `[]`. -/
def decodeListSpec (v : JVal) : List JVal :=
  match v with
  | .str s =>
    if truthy (.str s) then
      match jsonParse s with
      | none => []
      | some (.arr elts) => elts
      | some (.obj fields) => [.obj fields]
      | some _ => []
    else []
  | _ => []

/-- The `display_name` of a tag as the SPEC describes it (spec §4.4 step 3):
the value of the tag's `display_name` field, absent when the tag is not a
mapping or lacks the field. -/
def displayOf (t : JVal) : Option JVal :=
  match t with
  | .obj f => f.lookup "display_name"
  | _ => none

/-- The DataDownload built from one resource mapping as the SPEC describes
it (spec §4.4 step 4): raw `name`/`url`/`format` values (None when absent)
and a sanitized `description`. -/
def distOfObj (f : List (String × JVal)) : Distribution :=
  { name := (f.lookup "name").getD .null,
    contentUrl := (f.lookup "url").getD .null,
    encodingFormat := (f.lookup "format").getD .null,
    description := cleanupAny ((f.lookup "description").getD .null) }

/-- The Person built from one decoded author/maintainer entry as the SPEC
describes it (spec §4.4 steps 1–2), amended to attach the email only when
truthy: `none` when the entry is not a mapping or its Person has no
(non-empty) name, otherwise the Person built from the entry's name field
via the name parser with the truthy email attached. -/
def specPersonOf (nameKey emailKey : String) (ent : JVal) : Option Person :=
  match ent with
  | .obj f =>
    let nm := (f.lookup nameKey).getD .null
    let pn : NameParts :=
      match nm with
      | .str s => parse_person_name s
      | _ => {}
    let em := (f.lookup emailKey).getD .null
    let p : Person :=
      { name := pn.name, givenName := pn.givenName, familyName := pn.familyName,
        email := if truthy em then some em else none }
    if personNameTruthy p then some p else none
  | _ => none

/-- A decoded author/maintainer entry the mapper can process without
raising: a mapping whose name field is a string or not truthy. -/
def entryOk (nameKey : String) (ent : JVal) : Bool :=
  match ent with
  | .obj f =>
    match (f.lookup nameKey).getD .null with
    | .str _ => true
    | v => !truthy v
  | _ => false

/-- A tag or resource item the mapper can process without raising: a
mapping. -/
def isObj : JVal → Bool
  | .obj _ => true
  | _ => false

/-- A record on which `map_to_schema_org` cannot raise: the decoded
author/maintainer entries are mappings with string-or-falsy name fields,
`tags` and `resources` are lists of mappings, and `organization` is a
mapping or not truthy. -/
def recordOk (r : List (String × JVal)) : Bool :=
  (try_parse_json_list (fieldOr r "author")).all (entryOk "author_name") &&
  (try_parse_json_list (fieldOr r "maintainer")).all (entryOk "maintainer_name") &&
  (match fieldOrD r "tags" (.arr []) with
   | .arr ts => ts.all isObj
   | _ => false) &&
  (match fieldOrD r "resources" (.arr []) with
   | .arr rs => rs.all isObj
   | _ => false) &&
  (match fieldOr r "organization" with
   | .obj _ => true
   | v => !truthy v)

/-- `true` exactly when the computation did not raise. -/
def pyOk {α : Type} : PyRes α → Bool
  | .ok _ => true
  | .error _ => false

/-- A well-formed sample CKAN record, used to witness the conditional
theorems on concrete data. -/
def sampleRecord : List (String × JVal) :=
  [("title", .str "Test Dataset"),
   ("notes", .str "Description with <p>tags</p>"),
   ("id", .str "123"),
   ("name", .str "test-dataset"),
   ("license_title", .str "MIT"),
   ("metadata_created", .str "2024-01-01"),
   ("metadata_modified", .str "2024-02-01"),
   ("language", .str "en"),
   ("tags", .arr [.obj [("display_name", .str "Tag1")],
                  .obj [("name", .str "noDisplay")]]),
   ("author", .str "[\x7b\"author_name\": \"Jane Smith\", \"author_email\": \"jane@example.com\"\x7d]"),
   ("maintainer", .str "[\x7b\"maintainer_name\": \"Bob\"\x7d]"),
   ("resources", .arr [.obj [("name", .str "Resource 1"),
                             ("url", .str "http://res.url"),
                             ("format", .str "CSV"),
                             ("description", .str "a <b>x</b>")]]),
   ("organization", .obj [("title", .str "Org"),
                          ("description", .str "about org")])]

/-! ### General lemmas about the monadic plumbing -/

theorem exbind_ok {α β : Type} {x : PyRes α} {f : α → PyRes β} {b : β} :
    x >>= f = .ok b ↔ ∃ a, x = .ok a ∧ f a = .ok b := by
  cases x <;> simp [Bind.bind, Except.bind]

theorem expure_ok {α : Type} {a b : α} :
    (pure a : PyRes α) = .ok b ↔ a = b := by
  simp [pure, Except.pure]

/-! ### Claim C5: the flexible list decoder -/

/-- Claim C5: for every input value, `try_parse_json_list` returns a list
(and never raises): non-string or falsy input yields `[]`, a JSON parse
failure yields `[]`, a parsed list is returned as-is, a parsed mapping
yields a one-element list, and any other parsed value yields `[]` — i.e.
the function coincides with the decoder the spec describes. -/
theorem C5_try_parse_json_list_matches_spec (v : JVal) :
    try_parse_json_list v = decodeListSpec v := by
  cases v with
  | str s =>
    by_cases hs : s = ""
    · simp [try_parse_json_list, decodeListSpec, truthy, hs]
    · simp only [try_parse_json_list, decodeListSpec, truthy, hs, if_neg,
        bne_iff_ne, ne_eq, not_false_eq_true, if_true]
      cases h : jsonParse s with
      | none => rfl
      | some w => cases w <;> rfl
  | null => rfl
  | bool b => rfl
  | num n => rfl
  | arr l => rfl
  | obj f => rfl

/-! ### Claim C3: the name parser -/

/-- Claim C3 (counterexample): on `"John  Doe"` (two spaces, hence two
tokens) the `name` field returned by `parse_person_name` is the original
string verbatim, not the spec's trimmed-and-rejoined
`" ".join(tokens) = "John Doe"`. -/
theorem C3_name_not_rejoined_cex :
    2 ≤ (pySplit "John  Doe").length ∧
      (parse_person_name "John  Doe").name ≠
        some (" ".intercalate (pySplit "John  Doe")) := by
  constructor
  · decide
  · decide

/-- Claim C3 (amended): for every name string with at least two
whitespace-separated tokens, `givenName` is all tokens but the last joined
by a single space, `familyName` is the last token, and `name` is the
ORIGINAL string verbatim (not trimmed or rejoined). -/
theorem C3_parse_person_name_multi (s : String)
    (h : 2 ≤ (pySplit s).length) :
    (parse_person_name s).givenName =
        some (" ".intercalate (pySplit s).dropLast) ∧
      (parse_person_name s).familyName = some ((pySplit s).getLastD "") ∧
      (parse_person_name s).name = some s := by
  have hs : s ≠ "" := by
    intro he
    subst he
    simp [pySplit, wordsGo] at h
  rcases hp : pySplit s with _ | ⟨a, _ | ⟨b, rest⟩⟩
  · rw [hp] at h
    simp at h
  · rw [hp] at h
    simp at h
  · simp [parse_person_name, hs, hp]

/-- Witness for `C3_parse_person_name_multi` at `"John Doe"`. -/
theorem C3_parse_person_name_multi_witness :
    2 ≤ (pySplit "John Doe").length ∧
      (parse_person_name "John Doe").givenName =
          some (" ".intercalate (pySplit "John Doe").dropLast) ∧
        (parse_person_name "John Doe").familyName =
          some ((pySplit "John Doe").getLastD "") ∧
        (parse_person_name "John Doe").name = some "John Doe" :=
  ⟨by decide, C3_parse_person_name_multi "John Doe" (by decide)⟩

/-! ### Claim C10: the sanitizer can emit tag-shaped text -/

/-- Claim C10: there is an input (`"&lt;p&gt;"`) on which `cleanup_text`
outputs text containing a substring matching the HTML tag pattern
`<[^>]*>` (a `<` with a later `>`): entity decoding runs after tag
stripping, so the output is not guaranteed tag-free. -/
theorem C10_cleanup_text_can_emit_tags :
    cleanup_text "&lt;p&gt;" = "<p>" ∧ noTag ("<p>".toList) = false := by
  constructor
  · decide
  · decide

/-! ### Sanitizer lemmas towards claim C2 -/

theorem hasGt_eq_false_iff {l : List Char} : hasGt l = false ↔ '>' ∉ l := by
  induction l with
  | nil => simp [hasGt]
  | cons c rest ih =>
    simp only [hasGt, Bool.or_eq_false_iff, beq_eq_false_iff_ne, ne_eq, ih,
      List.mem_cons, not_or]
    constructor
    · rintro ⟨h1, h2⟩
      exact ⟨fun he => h1 he.symm, h2⟩
    · rintro ⟨h1, h2⟩
      exact ⟨fun he => h1 he.symm, h2⟩

theorem noTag_cons_iff {c : Char} {rest : List Char} :
    noTag (c :: rest) = true ↔
      (c = '<' → hasGt rest = false) ∧ noTag rest = true := by
  simp only [noTag, Bool.and_eq_true, Bool.or_eq_true, bne_iff_ne, ne_eq,
    Bool.not_eq_eq_eq_not, Bool.not_true]
  constructor
  · rintro ⟨h1 | h1, h2⟩
    · exact ⟨fun hc => absurd hc h1, h2⟩
    · exact ⟨fun _ => h1, h2⟩
  · rintro ⟨h1, h2⟩
    by_cases hc : c = '<'
    · exact ⟨Or.inr (h1 hc), h2⟩
    · exact ⟨Or.inl hc, h2⟩

theorem mem_stripGo {c : Char} :
    ∀ (l : List Char) (b : Bool), c ∈ stripGo b l → c ∈ l ∨ c = ' ' := by
  intro l
  induction l with
  | nil => intro b h; cases b <;> simp [stripGo] at h
  | cons d rest ih =>
    intro b h
    cases b with
    | true =>
      simp only [stripGo] at h
      split at h
      · rcases ih false h with h1 | h1
        · exact Or.inl (List.mem_cons_of_mem _ h1)
        · exact Or.inr h1
      · rcases ih true h with h1 | h1
        · exact Or.inl (List.mem_cons_of_mem _ h1)
        · exact Or.inr h1
    | false =>
      simp only [stripGo] at h
      split at h
      · rcases List.mem_cons.mp h with h1 | h1
        · exact Or.inr h1
        · rcases ih true h1 with h2 | h2
          · exact Or.inl (List.mem_cons_of_mem _ h2)
          · exact Or.inr h2
      · rcases List.mem_cons.mp h with h1 | h1
        · exact Or.inl (h1 ▸ List.mem_cons_self d rest)
        · rcases ih false h1 with h2 | h2
          · exact Or.inl (List.mem_cons_of_mem _ h2)
          · exact Or.inr h2

theorem hasGt_stripGo {l : List Char} (h : hasGt l = false) (b : Bool) :
    hasGt (stripGo b l) = false := by
  rw [hasGt_eq_false_iff] at h ⊢
  intro hm
  rcases mem_stripGo l b hm with h1 | h1
  · exact h h1
  · exact absurd h1 (by decide)

theorem noTag_stripGo (l : List Char) :
    noTag (stripGo false l) = true ∧ noTag (stripGo true l) = true := by
  induction l with
  | nil => simp [stripGo, noTag]
  | cons c rest ih =>
    obtain ⟨ihf, iht⟩ := ih
    constructor
    · simp only [stripGo]
      split
      · next hc =>
        rw [noTag_cons_iff]
        exact ⟨fun hsp => absurd hsp (by decide), iht⟩
      · next hc =>
        rw [noTag_cons_iff]
        refine ⟨fun hlt => ?_, ihf⟩
        have hng : hasGt rest = false := by
          cases hg : hasGt rest with
          | false => rfl
          | true => exact absurd (by simp [hlt, hg]) hc
        exact hasGt_stripGo hng false
    · simp only [stripGo]
      split
      · exact ihf
      · exact iht

theorem stripGo_noTag_id {l : List Char} (h : noTag l = true) :
    stripGo false l = l := by
  induction l with
  | nil => rfl
  | cons c rest ih =>
    obtain ⟨h1, h2⟩ := noTag_cons_iff.mp h
    simp only [stripGo]
    have hcond : (c == '<' && hasGt rest) = false := by
      by_cases hc : c = '<'
      · simp [hc, h1 hc]
      · simp [hc]
    rw [hcond]
    simp [ih h2]

theorem unescapeGo_no_amp {l : List Char} (h : '&' ∉ l) :
    ∀ fuel, unescapeGo fuel l = l := by
  induction l with
  | nil => intro fuel; cases fuel <;> rfl
  | cons c rest ih =>
    intro fuel
    have hc : c ≠ '&' := fun he => h (he ▸ List.mem_cons_self c rest)
    have hr : '&' ∉ rest := fun hm => h (List.mem_cons_of_mem _ hm)
    cases fuel with
    | zero => rfl
    | succ n =>
      simp only [unescapeGo, if_neg (by simp [hc] : ¬(c == '&') = true)]
      rw [ih hr]

theorem unescape_no_amp {l : List Char} (h : '&' ∉ l) : unescape l = l :=
  unescapeGo_no_amp h l.length

theorem mem_replCRLF {c : Char} {l : List Char} (h : c ∈ replCRLF l) :
    c ∈ l ∨ c = ' ' := by
  rw [replCRLF, List.mem_map] at h
  obtain ⟨a, ha, hc⟩ := h
  by_cases hsp : (a == '\r' || a == '\n') = true
  · rw [if_pos hsp] at hc
    exact Or.inr hc.symm
  · rw [if_neg hsp] at hc
    exact Or.inl (hc ▸ ha)

theorem noTag_replCRLF {l : List Char} (h : noTag l = true) :
    noTag (replCRLF l) = true := by
  induction l with
  | nil => rfl
  | cons c rest ih =>
    obtain ⟨h1, h2⟩ := noTag_cons_iff.mp h
    rw [replCRLF, List.map_cons, noTag_cons_iff]
    constructor
    · intro hlt
      have hc : c = '<' := by
        by_cases hsp : (c == '\r' || c == '\n') = true
        · rw [if_pos hsp] at hlt
          exact absurd hlt (by decide)
        · rw [if_neg hsp] at hlt
          exact hlt
      rw [hasGt_eq_false_iff] at h1 ⊢
      intro hm
      rcases mem_replCRLF hm with hmem | hsp
      · exact h1 hc hmem
      · exact absurd hsp (by decide)
    · exact ih h2

theorem replCRLF_id {l : List Char} (hr : '\r' ∉ l) (hn : '\n' ∉ l) :
    replCRLF l = l := by
  induction l with
  | nil => rfl
  | cons c rest ih =>
    have hc : (c == '\r' || c == '\n') = false := by
      have h1 : c ≠ '\r' := fun he => hr (he ▸ List.mem_cons_self c rest)
      have h2 : c ≠ '\n' := fun he => hn (he ▸ List.mem_cons_self c rest)
      simp [h1, h2]
    rw [replCRLF, List.map_cons, if_neg (by simp [hc])]
    have := ih (fun hm => hr (List.mem_cons_of_mem _ hm))
      (fun hm => hn (List.mem_cons_of_mem _ hm))
    rw [replCRLF] at this
    rw [this]

theorem mem_collapseGo {c : Char} :
    ∀ (l : List Char) (b : Bool), c ∈ collapseGo b l → c ∈ l ∨ c = ' ' := by
  intro l
  induction l with
  | nil => intro b h; simp [collapseGo] at h
  | cons d rest ih =>
    intro b h
    simp only [collapseGo] at h
    split at h
    · split at h
      · rcases ih true h with h1 | h1
        · exact Or.inl (List.mem_cons_of_mem _ h1)
        · exact Or.inr h1
      · rcases List.mem_cons.mp h with h1 | h1
        · exact Or.inr h1
        · rcases ih true h1 with h2 | h2
          · exact Or.inl (List.mem_cons_of_mem _ h2)
          · exact Or.inr h2
    · rcases List.mem_cons.mp h with h1 | h1
      · exact Or.inl (h1 ▸ List.mem_cons_self d rest)
      · rcases ih false h1 with h2 | h2
        · exact Or.inl (List.mem_cons_of_mem _ h2)
        · exact Or.inr h2

theorem noTag_collapseGo :
    ∀ (l : List Char) (b : Bool), noTag l = true → noTag (collapseGo b l) = true := by
  intro l
  induction l with
  | nil => intro b _; rfl
  | cons c rest ih =>
    intro b h
    obtain ⟨h1, h2⟩ := noTag_cons_iff.mp h
    simp only [collapseGo]
    split
    · split
      · exact ih true h2
      · rw [noTag_cons_iff]
        exact ⟨fun hsp => absurd hsp (by decide), ih true h2⟩
    · rw [noTag_cons_iff]
      refine ⟨fun hlt => ?_, ih false h2⟩
      have hf := h1 hlt
      rw [hasGt_eq_false_iff] at hf ⊢
      intro hm
      rcases mem_collapseGo rest false hm with hmm | hmm
      · exact hf hmm
      · exact absurd hmm (by decide)

theorem headNotSpace_collapseGo_true :
    ∀ (l : List Char), headNotSpace (collapseGo true l) = true := by
  intro l
  induction l with
  | nil => rfl
  | cons c rest ih =>
    simp only [collapseGo]
    split
    · next hsp => simpa using ih
    · next hsp =>
      have hf : pySpace c = false := by simpa using hsp
      simp [headNotSpace, hf]

theorem spaced_cons_iff {c : Char} {rest : List Char} :
    spaced (c :: rest) = true ↔
      (pySpace c = true → c = ' ' ∧ headNotSpace rest = true) ∧
        spaced rest = true := by
  simp only [spaced]
  split
  · next hsp =>
    simp only [Bool.and_eq_true, beq_iff_eq]
    constructor
    · rintro ⟨⟨hce, hh⟩, hs⟩
      exact ⟨fun _ => ⟨hce, hh⟩, hs⟩
    · rintro ⟨h1, hs⟩
      obtain ⟨hce, hh⟩ := h1 hsp
      exact ⟨⟨hce, hh⟩, hs⟩
  · next hsp =>
    constructor
    · intro hs
      exact ⟨fun hc => absurd hc hsp, hs⟩
    · rintro ⟨_, hs⟩
      exact hs

theorem spaced_collapseGo :
    ∀ (l : List Char) (b : Bool), spaced (collapseGo b l) = true := by
  intro l
  induction l with
  | nil => intro b; rfl
  | cons c rest ih =>
    intro b
    simp only [collapseGo]
    split
    · next hsp =>
      cases b with
      | true => simpa using ih true
      | false =>
        simp only [Bool.false_eq_true, if_false]
        rw [spaced_cons_iff]
        exact ⟨fun _ => ⟨rfl, headNotSpace_collapseGo_true rest⟩, ih true⟩
    · next hsp =>
      rw [spaced_cons_iff]
      exact ⟨fun hc => absurd hc hsp, ih false⟩

theorem spaced_mem {c : Char} :
    ∀ (l : List Char), spaced l = true → c ∈ l → pySpace c = true → c = ' ' := by
  intro l
  induction l with
  | nil => intro _ h; simp at h
  | cons d rest ih =>
    intro hs hm hp
    obtain ⟨h1, h2⟩ := spaced_cons_iff.mp hs
    rcases List.mem_cons.mp hm with he | hm2
    · subst he
      exact (h1 hp).1
    · exact ih h2 hm2 hp

theorem collapseGo_spaced_id :
    ∀ (l : List Char), spaced l = true →
      collapseGo false l = l ∧
        (headNotSpace l = true → collapseGo true l = l) := by
  intro l
  induction l with
  | nil => intro _; exact ⟨rfl, fun _ => rfl⟩
  | cons c rest ih =>
    intro hs
    obtain ⟨h1, h2⟩ := spaced_cons_iff.mp hs
    obtain ⟨ihf, iht⟩ := ih h2
    by_cases hsp : pySpace c = true
    · obtain ⟨hce, hh⟩ := h1 hsp
      constructor
      · simp only [collapseGo, if_pos hsp, Bool.false_eq_true, if_false]
        rw [iht hh, hce]
      · intro hh0
        rw [headNotSpace] at hh0
        simp [hsp] at hh0
    · constructor
      · simp only [collapseGo, if_neg hsp]
        rw [ihf]
      · intro _
        simp only [collapseGo, if_neg hsp]
        rw [ihf]

theorem spaced_dropWhile {l : List Char} (h : spaced l = true) :
    spaced (l.dropWhile pySpace) = true := by
  induction l with
  | nil => simpa using h
  | cons c rest ih =>
    obtain ⟨_, h2⟩ := spaced_cons_iff.mp h
    rw [List.dropWhile_cons]
    split
    · exact ih h2
    · exact h

theorem spaced_append_left :
    ∀ (l1 l2 : List Char), spaced (l1 ++ l2) = true → spaced l1 = true := by
  intro l1
  induction l1 with
  | nil => intro l2 _; rfl
  | cons c rest ih =>
    intro l2 h
    rw [List.cons_append] at h
    obtain ⟨h1, h2⟩ := spaced_cons_iff.mp h
    rw [spaced_cons_iff]
    refine ⟨fun hsp => ⟨(h1 hsp).1, ?_⟩, ih l2 h2⟩
    have hh := (h1 hsp).2
    cases rest with
    | nil => rfl
    | cons d rest' => simpa [headNotSpace] using hh

theorem noTag_append_left :
    ∀ (l1 l2 : List Char), noTag (l1 ++ l2) = true → noTag l1 = true := by
  intro l1
  induction l1 with
  | nil => intro l2 _; rfl
  | cons c rest ih =>
    intro l2 h
    rw [List.cons_append] at h
    obtain ⟨h1, h2⟩ := noTag_cons_iff.mp h
    rw [noTag_cons_iff]
    refine ⟨fun hc => ?_, ih l2 h2⟩
    have := h1 hc
    rw [hasGt_eq_false_iff] at this ⊢
    exact fun hm => this (List.mem_append_left l2 hm)

theorem noTag_dropWhile (p : Char → Bool) :
    ∀ (l : List Char), noTag l = true → noTag (l.dropWhile p) = true := by
  intro l
  induction l with
  | nil => intro h; simpa using h
  | cons c rest ih =>
    intro h
    rw [List.dropWhile_cons]
    split
    · exact ih (noTag_cons_iff.mp h).2
    · exact h

theorem pyStrip_eq_rdrop (l : List Char) :
    pyStrip l = List.rdropWhile pySpace (l.dropWhile pySpace) := rfl

theorem pyStrip_is_prefix_of_drop (l : List Char) :
    ∃ t, l.dropWhile pySpace = pyStrip l ++ t := by
  obtain ⟨t, ht⟩ := List.rdropWhile_prefix pySpace (l.dropWhile pySpace)
  exact ⟨t, by rw [← ht, pyStrip_eq_rdrop]⟩

theorem spaced_pyStrip {l : List Char} (h : spaced l = true) :
    spaced (pyStrip l) = true := by
  obtain ⟨t, ht⟩ := pyStrip_is_prefix_of_drop l
  have h1 : spaced (l.dropWhile pySpace) = true := spaced_dropWhile h
  rw [ht] at h1
  exact spaced_append_left _ t h1

theorem noTag_pyStrip {l : List Char} (h : noTag l = true) :
    noTag (pyStrip l) = true := by
  obtain ⟨t, ht⟩ := pyStrip_is_prefix_of_drop l
  have h1 := noTag_dropWhile pySpace l h
  rw [ht] at h1
  exact noTag_append_left _ t h1

theorem mem_pyStrip {c : Char} {l : List Char} (h : c ∈ pyStrip l) : c ∈ l := by
  obtain ⟨t, ht⟩ := pyStrip_is_prefix_of_drop l
  have h1 : c ∈ l.dropWhile pySpace := by
    rw [ht]
    exact List.mem_append_left t h
  exact (List.dropWhile_suffix pySpace).sublist.subset h1

theorem pyStrip_idem (l : List Char) : pyStrip (pyStrip l) = pyStrip l := by
  rw [pyStrip_eq_rdrop, pyStrip_eq_rdrop]
  have hdrop : (List.rdropWhile pySpace (l.dropWhile pySpace)).dropWhile pySpace =
      List.rdropWhile pySpace (l.dropWhile pySpace) := by
    cases hr : List.rdropWhile pySpace (l.dropWhile pySpace) with
    | nil => rfl
    | cons c rest =>
      rw [List.dropWhile_cons]
      have hpre := List.rdropWhile_prefix pySpace (l.dropWhile pySpace)
      rw [hr] at hpre
      obtain ⟨t, ht⟩ := hpre
      have hne : l.dropWhile pySpace ≠ [] := by
        rw [← ht]
        simp
      have hh := List.head_dropWhile_not pySpace l hne
      have hhead : (l.dropWhile pySpace).head hne = c := by
        have : l.dropWhile pySpace = c :: (rest ++ t) := by
          rw [← ht]
          simp
        simp [this]
      rw [hhead] at hh
      rw [if_neg (by simp [hh])]
  rw [hdrop, List.rdropWhile_idempotent]

theorem cleanChars_idem {l : List Char} (h : '&' ∉ l) :
    cleanChars (cleanChars l) = cleanChars l := by
  have hamp1 : '&' ∉ stripTags l := by
    intro hm
    rcases mem_stripGo l false hm with h1 | h1
    · exact h h1
    · exact absurd h1 (by decide)
  have hun : unescape (stripTags l) = stripTags l := unescape_no_amp hamp1
  have hz : cleanChars l = pyStrip (collapseGo false (replCRLF (stripTags l))) := by
    rw [cleanChars, hun]
  have hspy : spaced (cleanChars l) = true := by
    rw [hz]
    exact spaced_pyStrip (spaced_collapseGo _ false)
  have hnt : noTag (cleanChars l) = true := by
    rw [hz]
    exact noTag_pyStrip (noTag_collapseGo _ false
      (noTag_replCRLF (noTag_stripGo l).1))
  have hampy : '&' ∉ cleanChars l := by
    rw [hz]
    intro hm
    have hm2 := mem_pyStrip hm
    rcases mem_collapseGo _ false hm2 with hm3 | hm3
    · rcases mem_replCRLF hm3 with hm4 | hm4
      · exact hamp1 hm4
      · exact absurd hm4 (by decide)
    · exact absurd hm3 (by decide)
  have hcr : '\r' ∉ cleanChars l := by
    intro hm
    have := spaced_mem _ hspy hm (by decide)
    exact absurd this (by decide)
  have hnl : '\n' ∉ cleanChars l := by
    intro hm
    have := spaced_mem _ hspy hm (by decide)
    exact absurd this (by decide)
  conv_lhs => rw [cleanChars]
  rw [show stripTags (cleanChars l) = cleanChars l from stripGo_noTag_id hnt]
  rw [unescape_no_amp hampy]
  rw [replCRLF_id hcr hnl]
  rw [(collapseGo_spaced_id _ hspy).1]
  rw [hz, pyStrip_idem]

/-- Claim C2 (counterexample): `cleanup_text` is not idempotent. On
`"&lt;p&gt;"` the first pass strips no tags and unescapes to `"<p>"`; the
second pass strips that tag away. -/
theorem C2_cleanup_text_not_idempotent_cex :
    cleanup_text (cleanup_text "&lt;p&gt;") ≠ cleanup_text "&lt;p&gt;" := by
  decide

/-- Claim C2 (amended): `cleanup_text` is idempotent on every string
containing no ampersand — entity decoding (which runs after tag stripping
and can reintroduce `<...>` text) is the only source of non-idempotence. -/
theorem C2_cleanup_text_idem_no_amp (s : String) (h : '&' ∉ s.toList) :
    cleanup_text (cleanup_text s) = cleanup_text s := by
  by_cases hy : cleanup_text s = ""
  · rw [hy]
    rfl
  · conv_lhs => rw [cleanup_text]
    rw [if_neg hy]
    by_cases hs : s = ""
    · exact absurd (by simp [hs, cleanup_text]) hy
    · have hexp : cleanup_text s = String.mk (cleanChars s.toList) := by
        rw [cleanup_text, if_neg hs]
      rw [hexp]
      have hlist : (String.mk (cleanChars s.toList)).toList = cleanChars s.toList := rfl
      rw [hlist, cleanChars_idem h]

/-- Witness for `C2_cleanup_text_idem_no_amp` at a string with tags and
uneven spacing but no ampersand. -/
theorem C2_cleanup_text_idem_no_amp_witness :
    '&' ∉ "a  <b>hello</b>  c".toList ∧
      cleanup_text (cleanup_text "a  <b>hello</b>  c") =
        cleanup_text "a  <b>hello</b>  c" :=
  ⟨by decide, C2_cleanup_text_idem_no_amp "a  <b>hello</b>  c" (by decide)⟩

/-! ### Fold inversion lemmas for the mapper loops -/

theorem foldlM_filterMap_of_step {β : Type}
    (step : List β → JVal → PyRes (List β)) (g : JVal → Option β)
    (hstep : ∀ acc x res, step acc x = .ok res → res = acc ++ (g x).toList) :
    ∀ (items : List JVal) (acc res : List β),
      List.foldlM step acc items = .ok res → res = acc ++ items.filterMap g := by
  intro items
  induction items with
  | nil =>
    intro acc res h
    rw [List.foldlM_nil, expure_ok] at h
    simp [← h]
  | cons x xs ih =>
    intro acc res h
    rw [List.foldlM_cons, exbind_ok] at h
    obtain ⟨acc', h1, h2⟩ := h
    have hx := hstep acc x acc' h1
    subst hx
    have hr := ih _ _ h2
    rw [hr, List.filterMap_cons]
    cases hg : g x <;> simp [hg]

theorem foldlM_forall2_of_step {β : Type}
    (step : List β → JVal → PyRes (List β)) (rel : JVal → β → Prop)
    (hstep : ∀ acc x res, step acc x = .ok res →
      ∃ y, res = acc ++ [y] ∧ rel x y) :
    ∀ (items : List JVal) (acc res : List β),
      List.foldlM step acc items = .ok res →
      ∃ tail, res = acc ++ tail ∧ List.Forall₂ rel items tail := by
  intro items
  induction items with
  | nil =>
    intro acc res h
    rw [List.foldlM_nil, expure_ok] at h
    exact ⟨[], by simp [← h], List.Forall₂.nil⟩
  | cons x xs ih =>
    intro acc res h
    rw [List.foldlM_cons, exbind_ok] at h
    obtain ⟨acc', h1, h2⟩ := h
    obtain ⟨y, hy, hrel⟩ := hstep acc x acc' h1
    subst hy
    obtain ⟨tail, htail, hf⟩ := ih _ _ h2
    exact ⟨y :: tail, by rw [htail]; simp, List.Forall₂.cons hrel hf⟩

theorem foldlM_ok_of_step {β : Type}
    (step : List β → JVal → PyRes (List β)) (P : JVal → Prop)
    (hstep : ∀ acc x, P x → ∃ res, step acc x = .ok res) :
    ∀ (items : List JVal), (∀ x ∈ items, P x) →
      ∀ acc, ∃ res, List.foldlM step acc items = .ok res := by
  intro items
  induction items with
  | nil =>
    intro _ acc
    exact ⟨acc, by rw [List.foldlM_nil]; rfl⟩
  | cons x xs ih =>
    intro hall acc
    obtain ⟨res1, h1⟩ := hstep acc x (hall x (List.mem_cons_self x xs))
    obtain ⟨res2, h2⟩ := ih (fun y hy => hall y (List.mem_cons_of_mem x hy)) res1
    exact ⟨res2, by rw [List.foldlM_cons, exbind_ok]; exact ⟨res1, h1, h2⟩⟩

theorem keywordStep_ok {acc : List JVal} {tag : JVal} {res : List JVal}
    (h : keywordStep acc tag = .ok res) : res = acc ++ (displayOf tag).toList := by
  cases tag with
  | obj f =>
    cases hl : f.lookup "display_name" with
    | none =>
      simp [keywordStep, pyIn, pyIndexKey, hl, Bind.bind, Except.bind, pure,
        Except.pure] at h
      simp [displayOf, hl, ← h]
    | some v =>
      simp [keywordStep, pyIn, pyIndexKey, hl, Bind.bind, Except.bind, pure,
        Except.pure] at h
      simp [displayOf, hl, ← h]
  | str s =>
    by_cases hc : strContains s "display_name" = true
    · simp [keywordStep, pyIn, pyIndexKey, hc, Bind.bind, Except.bind] at h
    · simp [keywordStep, pyIn, pyIndexKey, hc, Bind.bind, Except.bind, pure,
        Except.pure] at h
      simp [displayOf, ← h]
  | arr l =>
    by_cases hc : l.any (jvalBeq (.str "display_name")) = true
    · simp [keywordStep, pyIn, pyIndexKey, hc, Bind.bind, Except.bind] at h
    · simp [keywordStep, pyIn, pyIndexKey, hc, Bind.bind, Except.bind, pure,
        Except.pure] at h
      simp [displayOf, ← h]
  | null => simp [keywordStep, pyIn, Bind.bind, Except.bind] at h
  | bool b => simp [keywordStep, pyIn, Bind.bind, Except.bind] at h
  | num n => simp [keywordStep, pyIn, Bind.bind, Except.bind] at h

theorem distStep_ok {acc : List Distribution} {x : JVal} {out : List Distribution}
    (h : distStep acc x = .ok out) :
    ∃ y, out = acc ++ [y] ∧ ∃ f, x = .obj f ∧ y = distOfObj f := by
  cases x with
  | obj f =>
    simp [distStep, pyGet, Bind.bind, Except.bind, pure, Except.pure] at h
    exact ⟨distOfObj f, by simp [← h, distOfObj, cleanupAny], f, rfl, rfl⟩
  | null => simp [distStep, pyGet, Bind.bind, Except.bind] at h
  | bool b => simp [distStep, pyGet, Bind.bind, Except.bind] at h
  | num n => simp [distStep, pyGet, Bind.bind, Except.bind] at h
  | str s => simp [distStep, pyGet, Bind.bind, Except.bind] at h
  | arr l => simp [distStep, pyGet, Bind.bind, Except.bind] at h

theorem parsePersonAny_str (s : String) :
    parsePersonAny (.str s) = .ok (parse_person_name s) := by
  by_cases hs : s = ""
  · simp [parsePersonAny, truthy, hs, parse_person_name]
  · simp [parsePersonAny, truthy, hs]

theorem parsePersonAny_falsy {v : JVal} (h : truthy v = false) :
    parsePersonAny v = .ok {} := by
  simp [parsePersonAny, h]

theorem personStep_ok {nk ek : String} {acc : List Person} {ent : JVal}
    {res : List Person} (h : personStep nk ek acc ent = .ok res) :
    res = acc ++ (specPersonOf nk ek ent).toList := by
  cases ent with
  | obj f =>
    cases hnm : (f.lookup nk).getD .null with
    | str s =>
      simp only [personStep, pyGet, hnm, parsePersonAny_str, Bind.bind,
        Except.bind, pure, Except.pure, Except.ok.injEq] at h
      rw [← h]
      simp only [specPersonOf, hnm]
      split <;> split <;> simp_all
    | null =>
      simp only [personStep, pyGet, hnm,
        parsePersonAny_falsy (show truthy JVal.null = false from rfl), Bind.bind,
        Except.bind, pure, Except.pure, Except.ok.injEq] at h
      rw [← h]
      simp [specPersonOf, hnm, personNameTruthy]
    | bool b =>
      cases b with
      | false =>
        simp only [personStep, pyGet, hnm,
          parsePersonAny_falsy (show truthy (JVal.bool false) = false from rfl),
          Bind.bind, Except.bind, pure, Except.pure, Except.ok.injEq] at h
        rw [← h]
        simp [specPersonOf, hnm, personNameTruthy]
      | true =>
        simp [personStep, pyGet, hnm, parsePersonAny, truthy, Bind.bind,
          Except.bind] at h
    | num n =>
      by_cases hn : n = 0
      · subst hn
        simp only [personStep, pyGet, hnm,
          parsePersonAny_falsy (show truthy (JVal.num 0) = false from rfl),
          Bind.bind, Except.bind, pure, Except.pure, Except.ok.injEq] at h
        rw [← h]
        simp [specPersonOf, hnm, personNameTruthy]
      · simp [personStep, pyGet, hnm, parsePersonAny, truthy, hn, Bind.bind,
          Except.bind] at h
    | arr l =>
      cases l with
      | nil =>
        simp only [personStep, pyGet, hnm,
          parsePersonAny_falsy (show truthy (JVal.arr []) = false from rfl),
          Bind.bind, Except.bind, pure, Except.pure, Except.ok.injEq] at h
        rw [← h]
        simp [specPersonOf, hnm, personNameTruthy]
      | cons x xs =>
        simp [personStep, pyGet, hnm, parsePersonAny, truthy, Bind.bind,
          Except.bind] at h
    | obj g =>
      cases g with
      | nil =>
        simp only [personStep, pyGet, hnm,
          parsePersonAny_falsy (show truthy (JVal.obj []) = false from rfl),
          Bind.bind, Except.bind, pure, Except.pure, Except.ok.injEq] at h
        rw [← h]
        simp [specPersonOf, hnm, personNameTruthy]
      | cons x xs =>
        simp [personStep, pyGet, hnm, parsePersonAny, truthy, Bind.bind,
          Except.bind] at h
  | null => simp [personStep, pyGet, Bind.bind, Except.bind] at h
  | bool b => simp [personStep, pyGet, Bind.bind, Except.bind] at h
  | num n => simp [personStep, pyGet, Bind.bind, Except.bind] at h
  | str s => simp [personStep, pyGet, Bind.bind, Except.bind] at h
  | arr l => simp [personStep, pyGet, Bind.bind, Except.bind] at h

theorem buildKeywords_ok {items ks : List JVal}
    (h : buildKeywords items = .ok ks) : ks = items.filterMap displayOf := by
  have := foldlM_filterMap_of_step keywordStep displayOf
    (fun _ _ _ hh => keywordStep_ok hh) items [] ks h
  simpa using this

theorem buildPersons_ok {nk ek : String} {entries : List JVal} {ps : List Person}
    (h : buildPersons nk ek entries = .ok ps) :
    ps = entries.filterMap (specPersonOf nk ek) := by
  have := foldlM_filterMap_of_step (personStep nk ek) (specPersonOf nk ek)
    (fun _ _ _ hh => personStep_ok hh) entries [] ps h
  simpa using this

theorem buildDistributions_ok {items : List JVal} {ds : List Distribution}
    (h : buildDistributions items = .ok ds) :
    List.Forall₂ (fun e dist => ∃ f, e = .obj f ∧ dist = distOfObj f) items ds := by
  obtain ⟨tail, htail, hf⟩ := foldlM_forall2_of_step distStep
    (fun e dist => ∃ f, e = .obj f ∧ dist = distOfObj f)
    (fun _ _ _ hh => distStep_ok hh) items [] ds h
  simpa [htail] using hf

theorem map_ok_parts {r : List (String × JVal)} {d : Dataset}
    (h : map_to_schema_org r = .ok d) :
    buildPersons "author_name" "author_email"
        (try_parse_json_list (fieldOr r "author")) = .ok d.creator ∧
      buildPersons "maintainer_name" "maintainer_email"
        (try_parse_json_list (fieldOr r "maintainer")) = .ok d.maintainer ∧
      (∃ items, pyIter (fieldOrD r "tags" (.arr [])) = .ok items ∧
        buildKeywords items = .ok d.keywords) ∧
      (∃ items, pyIter (fieldOrD r "resources" (.arr [])) = .ok items ∧
        buildDistributions items = .ok d.distribution) ∧
      d.name = fieldOr r "title" ∧
      d.description = cleanupAny (fieldOr r "notes") ∧
      d.identifier = fieldOr r "id" ∧
      d.url = "http://129.187.232.198:5000/dataset/" ++ pyStr (fieldOr r "name") ∧
      d.license = (if truthy (fieldOr r "license_url") then fieldOr r "license_url"
        else fieldOr r "license_title") ∧
      d.datePublished = fieldOr r "metadata_created" ∧
      d.dateModified = fieldOr r "metadata_modified" ∧
      d.inLanguage = fieldOr r "language" ∧
      (if truthy (fieldOr r "organization") then
        ∃ t ds, pyGet (fieldOr r "organization") "title" = .ok t ∧
          pyGet (fieldOr r "organization") "description" = .ok ds ∧
          d.publisher = some { name := t, description := ds }
      else d.publisher = none) := by
  rw [map_to_schema_org] at h
  rw [exbind_ok] at h
  obtain ⟨cs, hcs, h⟩ := h
  rw [exbind_ok] at h
  obtain ⟨ms, hms, h⟩ := h
  rw [exbind_ok] at h
  obtain ⟨ti, hti, h⟩ := h
  rw [exbind_ok] at h
  obtain ⟨ks, hks, h⟩ := h
  rw [exbind_ok] at h
  obtain ⟨ri, hri, h⟩ := h
  rw [exbind_ok] at h
  obtain ⟨ds, hds, h⟩ := h
  dsimp only at h
  split at h
  · next horg =>
    rw [exbind_ok] at h
    obtain ⟨t, ht, h⟩ := h
    rw [exbind_ok] at h
    obtain ⟨dsc, hdsc, h⟩ := h
    rw [expure_ok] at h
    subst h
    refine ⟨hcs, hms, ⟨ti, hti, hks⟩, ⟨ri, hri, hds⟩, rfl, rfl, rfl, rfl, rfl,
      rfl, rfl, rfl, ?_⟩
    rw [if_pos horg]
    exact ⟨t, dsc, ht, hdsc, rfl⟩
  · next horg =>
    rw [expure_ok] at h
    subst h
    refine ⟨hcs, hms, ⟨ti, hti, hks⟩, ⟨ri, hri, hds⟩, rfl, rfl, rfl, rfl, rfl,
      rfl, rfl, rfl, ?_⟩
    rw [if_neg horg]

theorem length_filterMap_isSome {α β : Type} (g : α → Option β) :
    ∀ (l : List α),
      (l.filterMap g).length = (l.filter (fun x => (g x).isSome)).length := by
  intro l
  induction l with
  | nil => rfl
  | cons x xs ih =>
    rw [List.filterMap_cons, List.filter_cons]
    cases hg : g x <;> simp [hg, ih]

/-! ### Claim C4: creators and maintainers -/

/-- Claim C4 (counterexample): an `author_email` field that is PRESENT but
empty is not attached — the code attaches the email only when truthy. The
decoded entry carries `author_email` with value `""`, yet the resulting
Person has no email. -/
theorem C4_email_present_not_attached_cex :
    try_parse_json_list
        (fieldOr [("author", .str "[\x7b\"author_name\": \"John Doe\", \"author_email\": \"\"\x7d]")] "author") =
      [.obj [("author_name", .str "John Doe"), ("author_email", .str "")]] ∧
    Except.map Dataset.creator
        (map_to_schema_org [("author", .str "[\x7b\"author_name\": \"John Doe\", \"author_email\": \"\"\x7d]")]) =
      .ok [{ name := some "John Doe", givenName := some "John",
             familyName := some "Doe", email := none }] := by
  exact ⟨rfl, rfl⟩

/-- Claim C4 (amended): for every record the mapper succeeds on, each
decoded author entry yields a Person built from its `author_name` via the
name parser, with `author_email` attached as email whenever that field is
TRUTHY (present and non-empty), and the Person is kept iff its name is
non-empty; the maintainer list is built identically from
`maintainer_name`/`maintainer_email`. -/
theorem C4_creators_maintainers (r : List (String × JVal)) (d : Dataset)
    (h : map_to_schema_org r = .ok d) :
    d.creator = (try_parse_json_list (fieldOr r "author")).filterMap
        (specPersonOf "author_name" "author_email") ∧
      d.maintainer = (try_parse_json_list (fieldOr r "maintainer")).filterMap
        (specPersonOf "maintainer_name" "maintainer_email") := by
  obtain ⟨hcs, hms, -⟩ := map_ok_parts h
  exact ⟨buildPersons_ok hcs, buildPersons_ok hms⟩

/-- Witness for `C4_creators_maintainers` at `sampleRecord`. -/
theorem C4_creators_maintainers_witness :
    Except.map Dataset.creator (map_to_schema_org sampleRecord) =
      .ok ((try_parse_json_list (fieldOr sampleRecord "author")).filterMap
        (specPersonOf "author_name" "author_email")) ∧
    Except.map Dataset.maintainer (map_to_schema_org sampleRecord) =
      .ok ((try_parse_json_list (fieldOr sampleRecord "maintainer")).filterMap
        (specPersonOf "maintainer_name" "maintainer_email")) := by
  cases hm : map_to_schema_org sampleRecord with
  | error e =>
    have hok : pyOk (map_to_schema_org sampleRecord) = true := by rfl
    rw [hm] at hok
    simp [pyOk] at hok
  | ok d =>
    obtain ⟨h1, h2⟩ := C4_creators_maintainers sampleRecord d hm
    exact ⟨by rw [Except.map, h1], by rw [Except.map, h2]⟩

/-! ### Claim C6: keywords -/

/-- Claim C6: for every record the mapper succeeds on whose `tags` value is
a list, `keywords` is the ordered list of each tag's `display_name`,
skipping tags lacking that field, and its length equals the number of tags
possessing a `display_name` field. -/
theorem C6_keywords (r : List (String × JVal)) (d : Dataset) (ts : List JVal)
    (h : map_to_schema_org r = .ok d)
    (htags : fieldOrD r "tags" (.arr []) = .arr ts) :
    d.keywords = ts.filterMap displayOf ∧
      d.keywords.length =
        (ts.filter (fun t => (displayOf t).isSome)).length := by
  obtain ⟨-, -, ⟨items, hit, hkw⟩, -⟩ := map_ok_parts h
  rw [htags] at hit
  simp only [pyIter, Except.ok.injEq] at hit
  subst hit
  have hk := buildKeywords_ok hkw
  exact ⟨hk, by rw [hk, length_filterMap_isSome]⟩

/-- Witness for `C6_keywords` at `sampleRecord` (two tags, one with a
`display_name`). -/
theorem C6_keywords_witness :
    Except.map Dataset.keywords (map_to_schema_org sampleRecord) =
      .ok [.str "Tag1"] ∧
    Except.map (fun d => d.keywords.length) (map_to_schema_org sampleRecord) =
      .ok 1 := by
  cases hm : map_to_schema_org sampleRecord with
  | error e =>
    have hok : pyOk (map_to_schema_org sampleRecord) = true := by rfl
    rw [hm] at hok
    simp [pyOk] at hok
  | ok d =>
    obtain ⟨h1, h2⟩ := C6_keywords sampleRecord d
      [.obj [("display_name", .str "Tag1")], .obj [("name", .str "noDisplay")]]
      hm rfl
    constructor
    · rw [Except.map, h1]
      rfl
    · rw [Except.map, h2]
      rfl

/-! ### Claim C7: distributions -/

/-- Claim C7: for every record the mapper succeeds on whose `resources`
value is a list, `distribution` has exactly one entry per resource, in
source order; each resource is a mapping and its entry carries the raw
`name`/`url`/`format` values and the sanitized `description`. -/
theorem C7_distributions (r : List (String × JVal)) (d : Dataset)
    (rs : List JVal) (h : map_to_schema_org r = .ok d)
    (hres : fieldOrD r "resources" (.arr []) = .arr rs) :
    d.distribution.length = rs.length ∧
      List.Forall₂ (fun e dist => ∃ f, e = .obj f ∧ dist = distOfObj f)
        rs d.distribution := by
  obtain ⟨-, -, -, ⟨items, hit, hd⟩, -⟩ := map_ok_parts h
  rw [hres] at hit
  simp only [pyIter, Except.ok.injEq] at hit
  subst hit
  have hf := buildDistributions_ok hd
  exact ⟨hf.length_eq.symm, hf⟩

/-- Witness for `C7_distributions` at `sampleRecord` (one resource; its
description is sanitized, the other fields are carried raw). -/
theorem C7_distributions_witness :
    Except.map (fun d => d.distribution.length) (map_to_schema_org sampleRecord) =
      .ok 1 ∧
    Except.map Dataset.distribution (map_to_schema_org sampleRecord) =
      .ok [{ name := .str "Resource 1", contentUrl := .str "http://res.url",
             encodingFormat := .str "CSV", description := "a x" }] := by
  cases hm : map_to_schema_org sampleRecord with
  | error e =>
    have hok : pyOk (map_to_schema_org sampleRecord) = true := by rfl
    rw [hm] at hok
    simp [pyOk] at hok
  | ok d =>
    obtain ⟨h1, h2⟩ := C7_distributions sampleRecord d
      [.obj [("name", .str "Resource 1"), ("url", .str "http://res.url"),
             ("format", .str "CSV"), ("description", .str "a <b>x</b>")]]
      hm rfl
    have hlen1 : d.distribution.length = 1 := by
      rw [h1]
      rfl
    obtain ⟨y, hy⟩ := List.length_eq_one.mp hlen1
    constructor
    · simp [Except.map, hlen1]
    · rw [hy] at h2
      rcases h2 with - | ⟨hr, -⟩
      obtain ⟨f, hf, hdist⟩ := hr
      injection hf with hf2
      subst hf2
      subst hdist
      simp only [Except.map, hy]
      rfl

/-! ### Claim C8: publisher -/

/-- Claim C8: for every record the mapper succeeds on, the output has a
publisher iff the record's `organization` field is non-empty (truthy), and
in that case the publisher is the Organization built from the
organization's `title` and `description`. -/
theorem C8_publisher (r : List (String × JVal)) (d : Dataset)
    (h : map_to_schema_org r = .ok d) :
    (d.publisher ≠ none ↔ truthy (fieldOr r "organization") = true) ∧
      (∀ f, fieldOr r "organization" = .obj f → truthy (.obj f) = true →
        d.publisher = some { name := (f.lookup "title").getD .null,
                             description := (f.lookup "description").getD .null }) := by
  have hpub := (map_ok_parts h).2.2.2.2.2.2.2.2.2.2.2.2
  by_cases horg : truthy (fieldOr r "organization") = true
  · rw [if_pos horg] at hpub
    obtain ⟨t, dsc, ht, hdsc, hp⟩ := hpub
    constructor
    · constructor
      · intro _
        exact horg
      · intro _
        rw [hp]
        simp
    · intro f hf _
      rw [hf] at ht hdsc
      simp only [pyGet, Except.ok.injEq] at ht hdsc
      rw [hp, ht, hdsc]
  · rw [if_neg horg] at hpub
    constructor
    · constructor
      · intro hne
        exact absurd hpub hne
      · intro htr
        exact absurd htr horg
    · intro f hf htr
      rw [hf] at horg
      exact absurd htr horg

/-- Witness for `C8_publisher` at `sampleRecord` (organization present). -/
theorem C8_publisher_witness :
    Except.map Dataset.publisher (map_to_schema_org sampleRecord) =
      .ok (some { name := .str "Org", description := .str "about org" }) := by
  cases hm : map_to_schema_org sampleRecord with
  | error e =>
    have hok : pyOk (map_to_schema_org sampleRecord) = true := by rfl
    rw [hm] at hok
    simp [pyOk] at hok
  | ok d =>
    have h8 := (C8_publisher sampleRecord d hm).2
      [("title", .str "Org"), ("description", .str "about org")] rfl rfl
    simp only [Except.map, h8]
    rfl

/-! ### Claim C9: top-level fields and license fallback -/

/-- Claim C9 (counterexample): with `license_url` PRESENT but equal to the
empty string and `license_title = "MIT"`, the output license is `"MIT"`,
not the present `license_url` value — the code tests truthiness, not
presence. -/
theorem C9_license_presence_cex :
    fieldOr [("license_url", .str ""), ("license_title", .str "MIT")]
        "license_url" = .str "" ∧
      Except.map Dataset.license
          (map_to_schema_org
            [("license_url", .str ""), ("license_title", .str "MIT")]) =
        .ok (.str "MIT") ∧
      ("MIT" : String) ≠ "" := by
  exact ⟨rfl, rfl, by decide⟩

/-- Claim C9 (amended): for every record the mapper succeeds on, the
license is `license_url` when TRUTHY (non-empty), else `license_title`,
and the other top-level fields are copied/derived directly: name from
title, description from sanitized notes, identifier from id, url from the
fixed base path plus `str()` of the record's name, datePublished from
metadata_created, dateModified from metadata_modified, inLanguage from
language. -/
theorem C9_top_level_fields (r : List (String × JVal)) (d : Dataset)
    (h : map_to_schema_org r = .ok d) :
    d.name = fieldOr r "title" ∧
      d.description = cleanupAny (fieldOr r "notes") ∧
      d.identifier = fieldOr r "id" ∧
      d.url = "http://129.187.232.198:5000/dataset/" ++ pyStr (fieldOr r "name") ∧
      d.license = (if truthy (fieldOr r "license_url") then fieldOr r "license_url"
        else fieldOr r "license_title") ∧
      d.datePublished = fieldOr r "metadata_created" ∧
      d.dateModified = fieldOr r "metadata_modified" ∧
      d.inLanguage = fieldOr r "language" := by
  obtain ⟨-, -, -, -, h1, h2, h3, h4, h5, h6, h7, h8, -⟩ := map_ok_parts h
  exact ⟨h1, h2, h3, h4, h5, h6, h7, h8⟩

/-- Witness for `C9_top_level_fields` at `sampleRecord` (no `license_url`,
so the license falls back to `license_title`). -/
theorem C9_top_level_fields_witness :
    Except.map Dataset.license (map_to_schema_org sampleRecord) =
      .ok (.str "MIT") ∧
    Except.map Dataset.url (map_to_schema_org sampleRecord) =
      .ok "http://129.187.232.198:5000/dataset/test-dataset" ∧
    Except.map Dataset.description (map_to_schema_org sampleRecord) =
      .ok "Description with tags" := by
  cases hm : map_to_schema_org sampleRecord with
  | error e =>
    have hok : pyOk (map_to_schema_org sampleRecord) = true := by rfl
    rw [hm] at hok
    simp [pyOk] at hok
  | ok d =>
    obtain ⟨-, h2, -, h4, h5, -⟩ := C9_top_level_fields sampleRecord d hm
    refine ⟨?_, ?_, ?_⟩
    · simp only [Except.map, h5]
      rfl
    · simp only [Except.map, h4]
      rfl
    · simp only [Except.map, h2]
      rfl

/-! ### Claim C1: totality of the mapper -/

/-- Claim C1 (counterexample): the mapper raises on a mapping-shaped record
whose author field decodes to a list containing a non-mapping element —
`.get` on the integer 42 raises `AttributeError`, so the mapper is not a
total function over all mapping-shaped inputs. -/
theorem C1_mapper_raises_cex :
    map_to_schema_org [("author", .str "[42]")] =
      .error "AttributeError: get" := rfl

theorem personStep_total {nk : String} (ek : String) (acc : List Person)
    {ent : JVal} (he : entryOk nk ent = true) :
    ∃ res, personStep nk ek acc ent = .ok res := by
  cases ent with
  | obj f =>
    cases hnm : (f.lookup nk).getD .null with
    | str s =>
      simp only [personStep, pyGet, hnm, parsePersonAny_str, Bind.bind,
        Except.bind, pure, Except.pure]
      exact ⟨_, rfl⟩
    | null =>
      simp only [personStep, pyGet, hnm,
        parsePersonAny_falsy (show truthy JVal.null = false from rfl),
        Bind.bind, Except.bind, pure, Except.pure]
      exact ⟨_, rfl⟩
    | bool b =>
      simp only [entryOk, hnm] at he
      have hb : truthy (.bool b) = false := by simpa using he
      simp only [personStep, pyGet, hnm, parsePersonAny_falsy hb, Bind.bind,
        Except.bind, pure, Except.pure]
      exact ⟨_, rfl⟩
    | num n =>
      simp only [entryOk, hnm] at he
      have hb : truthy (.num n) = false := by simpa using he
      simp only [personStep, pyGet, hnm, parsePersonAny_falsy hb, Bind.bind,
        Except.bind, pure, Except.pure]
      exact ⟨_, rfl⟩
    | arr l =>
      simp only [entryOk, hnm] at he
      have hb : truthy (.arr l) = false := by simpa using he
      simp only [personStep, pyGet, hnm, parsePersonAny_falsy hb, Bind.bind,
        Except.bind, pure, Except.pure]
      exact ⟨_, rfl⟩
    | obj g =>
      simp only [entryOk, hnm] at he
      have hb : truthy (.obj g) = false := by simpa using he
      simp only [personStep, pyGet, hnm, parsePersonAny_falsy hb, Bind.bind,
        Except.bind, pure, Except.pure]
      exact ⟨_, rfl⟩
  | null => simp [entryOk] at he
  | bool b => simp [entryOk] at he
  | num n => simp [entryOk] at he
  | str s => simp [entryOk] at he
  | arr l => simp [entryOk] at he

theorem keywordStep_total (acc : List JVal) {tag : JVal}
    (ht : isObj tag = true) : ∃ res, keywordStep acc tag = .ok res := by
  cases tag with
  | obj f =>
    cases hl : f.lookup "display_name" with
    | none =>
      simp only [keywordStep, pyIn, hl, Bind.bind, Except.bind, pure,
        Except.pure, Option.isSome_none]
      exact ⟨_, rfl⟩
    | some v =>
      simp only [keywordStep, pyIn, pyIndexKey, hl, Bind.bind, Except.bind,
        pure, Except.pure, Option.isSome_some]
      exact ⟨_, rfl⟩
  | null => simp [isObj] at ht
  | bool b => simp [isObj] at ht
  | num n => simp [isObj] at ht
  | str s => simp [isObj] at ht
  | arr l => simp [isObj] at ht

theorem distStep_total (acc : List Distribution) {x : JVal}
    (hx : isObj x = true) : ∃ res, distStep acc x = .ok res := by
  cases x with
  | obj f =>
    simp only [distStep, pyGet, Bind.bind, Except.bind, pure, Except.pure]
    exact ⟨_, rfl⟩
  | null => simp [isObj] at hx
  | bool b => simp [isObj] at hx
  | num n => simp [isObj] at hx
  | str s => simp [isObj] at hx
  | arr l => simp [isObj] at hx

/-- Claim C1 (amended): the mapper returns a Dataset without raising on
every record whose decoded author/maintainer entries are mappings with
string-or-falsy name fields, whose `tags` and `resources` values are lists
of mappings, and whose `organization` is a mapping or not truthy
(`recordOk`). Malformed-but-well-shaped fields (missing keys, falsy
values) degrade silently; other malformed sub-structures raise, so the
guard is needed. -/
theorem C1_mapper_total_on_wellformed (r : List (String × JVal))
    (h : recordOk r = true) : pyOk (map_to_schema_org r) = true := by
  rw [recordOk] at h
  simp only [Bool.and_eq_true] at h
  obtain ⟨⟨⟨⟨ha, hmt⟩, htag⟩, hres⟩, horg⟩ := h
  obtain ⟨cs, hcs⟩ := foldlM_ok_of_step (personStep "author_name" "author_email")
    (fun x => entryOk "author_name" x = true)
    (fun acc x hx => personStep_total "author_email" acc hx)
    (try_parse_json_list (fieldOr r "author")) (List.all_eq_true.mp ha) []
  obtain ⟨ms, hms⟩ := foldlM_ok_of_step
    (personStep "maintainer_name" "maintainer_email")
    (fun x => entryOk "maintainer_name" x = true)
    (fun acc x hx => personStep_total "maintainer_email" acc hx)
    (try_parse_json_list (fieldOr r "maintainer")) (List.all_eq_true.mp hmt) []
  obtain ⟨ts, hts, hts2⟩ :
      ∃ ts, fieldOrD r "tags" (.arr []) = .arr ts ∧ ts.all isObj = true := by
    cases hv : fieldOrD r "tags" (.arr []) with
    | arr l =>
      rw [hv] at htag
      exact ⟨l, rfl, htag⟩
    | null => rw [hv] at htag; simp at htag
    | bool b => rw [hv] at htag; simp at htag
    | num n => rw [hv] at htag; simp at htag
    | str s => rw [hv] at htag; simp at htag
    | obj f => rw [hv] at htag; simp at htag
  obtain ⟨rs, hrs, hrs2⟩ :
      ∃ rs, fieldOrD r "resources" (.arr []) = .arr rs ∧ rs.all isObj = true := by
    cases hv : fieldOrD r "resources" (.arr []) with
    | arr l =>
      rw [hv] at hres
      exact ⟨l, rfl, hres⟩
    | null => rw [hv] at hres; simp at hres
    | bool b => rw [hv] at hres; simp at hres
    | num n => rw [hv] at hres; simp at hres
    | str s => rw [hv] at hres; simp at hres
    | obj f => rw [hv] at hres; simp at hres
  obtain ⟨ks, hks⟩ := foldlM_ok_of_step keywordStep (fun x => isObj x = true)
    (fun acc x hx => keywordStep_total acc hx) ts (List.all_eq_true.mp hts2) []
  obtain ⟨ds, hds⟩ := foldlM_ok_of_step distStep (fun x => isObj x = true)
    (fun acc x hx => distStep_total acc hx) rs (List.all_eq_true.mp hrs2) []
  have hcs2 : buildPersons "author_name" "author_email"
      (try_parse_json_list (fieldOr r "author")) = .ok cs := hcs
  have hms2 : buildPersons "maintainer_name" "maintainer_email"
      (try_parse_json_list (fieldOr r "maintainer")) = .ok ms := hms
  have hit : pyIter (fieldOrD r "tags" (.arr [])) = .ok ts := by
    rw [hts]
    rfl
  have hir : pyIter (fieldOrD r "resources" (.arr [])) = .ok rs := by
    rw [hrs]
    rfl
  have hks2 : buildKeywords ts = .ok ks := hks
  have hds2 : buildDistributions rs = .ok ds := hds
  rw [map_to_schema_org]
  simp only [hcs2, hms2, hit, hir, hks2, hds2, Bind.bind, Except.bind]
  by_cases ho : truthy (fieldOr r "organization") = true
  · obtain ⟨f, hf⟩ : ∃ f, fieldOr r "organization" = .obj f := by
      cases hv : fieldOr r "organization" with
      | obj f => exact ⟨f, rfl⟩
      | null =>
        rw [hv] at ho
        simp [truthy] at ho
      | bool b =>
        rw [hv] at horg ho
        simp_all
      | num n =>
        rw [hv] at horg ho
        simp_all
      | str s =>
        rw [hv] at horg ho
        simp_all
      | arr l =>
        rw [hv] at horg ho
        simp_all
    rw [hf, if_pos (by rw [← hf]; exact ho)]
    simp [pyGet, Bind.bind, Except.bind, pure, Except.pure, pyOk]
  · rw [if_neg ho]
    simp [pure, Except.pure, pyOk]

/-- Witness for `C1_mapper_total_on_wellformed` at `sampleRecord`. -/
theorem C1_mapper_total_on_wellformed_witness :
    recordOk sampleRecord = true ∧ pyOk (map_to_schema_org sampleRecord) = true :=
  ⟨by decide, C1_mapper_total_on_wellformed sampleRecord (by decide)⟩

end SradiMap
